import Mathlib

/-!
Chat server (gopl.io ch8/chat): broadcaster, connection handler, idle watchdog

A shallow embedding of `src/ch8/chat/chat.go`.

* A Go channel is represented by its identity (a natural number standing for
  the channel returned by `make(chan string)`); the runtime state of the
  channels is the list of those that have been closed.  A send on, or a close
  of, a closed channel panics; a panic is the result `none`.
* The package-level map `clients` is represented by the list of its keys, in
  the order in which a `range` loop visits them.  Go leaves that order
  unspecified, so the statements below are made for every list.
  The map's values are never read by the program and are not represented.
* Every channel operation and every map update is appended to a log, oldest
  first, so that statements about what each sink received, and in which order
  operations happened, can be read off the final state.
* The goroutine `clientWriter` receives every message sent on its channel and
  writes it to the connection; the messages a client receives are therefore
  the messages sent on its channel, in order.
-/

namespace Chat

/-! ## Data model (chat.go lines 20-32) -/

/-- The Go struct clientChannel: an outgoing message channel and a display name.
The channel is one made by make(chan string), as handleConn does on line 59;
the nil channel is not represented. -/
structure clientChannel where
  channel : Nat
  clientName : String
deriving DecidableEq, Repr

/-- What the broadcaster's select can receive: a value on the channel
messages, entering or leaving. -/
inductive Event where
  | messages (msg : String)
  | entering (cli : clientChannel)
  | leaving (cli : clientChannel)
deriving DecidableEq, Repr

/-- The primitive operations on channels and on the map clients. -/
inductive Op where
  | send (ch : Nat) (msg : String)
  | insert (cli : clientChannel)
  | delete (cli : clientChannel)
  | close (ch : Nat)
deriving DecidableEq, Repr

/-- The program state the chat core works on. -/
structure State where
  /-- keys of the package-level map clients -/
  clients : List clientChannel
  /-- channels on which close has been executed -/
  closed : List Nat
  /-- every operation executed so far, oldest first -/
  log : List Op
deriving DecidableEq, Repr

/-- The state at program start: the map is empty, no channel is closed. -/
def init : State := { clients := [], closed := [], log := [] }

/-- The messages sent on channel ch, in order, according to a log. -/
def sentOn (ch : Nat) : List Op → List String
  | [] => []
  | Op.send c m :: rest => if c = ch then m :: sentOn ch rest else sentOn ch rest
  | _ :: rest => sentOn ch rest

/-- The lines the client whose sink is ch has received so far. -/
def delivered (ch : Nat) (s : State) : List String := sentOn ch s.log

/-! ## Channel and map primitives -/

/-- The statement ch <- msg: panics when ch is closed. -/
def send (s : State) (ch : Nat) (msg : String) : Option State :=
  if ch ∈ s.closed then none
  else some { s with log := s.log ++ [Op.send ch msg] }

/-- The statement close(ch): panics when ch is already closed. -/
def closeChan (s : State) (ch : Nat) : Option State :=
  if ch ∈ s.closed then none
  else some { s with closed := ch :: s.closed, log := s.log ++ [Op.close ch] }

/-- The statement clients[cli] = true. -/
def mapInsert (s : State) (cli : clientChannel) : State :=
  { s with
    clients := if cli ∈ s.clients then s.clients else s.clients ++ [cli]
    log := s.log ++ [Op.insert cli] }

/-- The statement delete(clients, cli). -/
def mapDelete (s : State) (cli : clientChannel) : State :=
  { s with
    clients := s.clients.filter (fun d => decide (d ≠ cli))
    log := s.log ++ [Op.delete cli] }

/-! ## broadcaster (chat.go lines 34-53) -/

/-- The loop of lines 41-43: for cli := range clients, cli.channel <- msg. -/
def rangeSend (msg : String) : List clientChannel → State → Option State
  | [], s => some s
  | cli :: rest, s =>
    match send s cli.channel msg with
    | none => none
    | some s1 => rangeSend msg rest s1

/-- One iteration of the broadcaster's for/select loop, for the event received. -/
def broadcasterStep (s : State) : Event → Option State
  | Event.messages msg => rangeSend msg s.clients s
  | Event.entering cli => some (mapInsert s cli)
  | Event.leaving cli => closeChan (mapDelete s cli) cli.channel

/-- The broadcaster processing a sequence of events one at a time. -/
def broadcaster (s : State) : List Event → Option State
  | [] => some s
  | e :: rest =>
    match broadcasterStep s e with
    | none => none
    | some s1 => broadcaster s1 rest

/-! ## broadcastAllClientNames, scan, handleConn (chat.go lines 58-114) -/

/-- The library function strings.Join, as implemented in Go. -/
def stringsJoin : List String → String → String
  | [], _ => ""
  | [e], _ => e
  | e :: rest, sep => rest.foldl (fun b x => b ++ sep ++ x) e

/-- The loop of lines 88-90: append each client's name to clientNames. -/
def collectNames (cs : List clientChannel) : List String :=
  cs.foldl (fun clientNames cli => clientNames ++ [cli.clientName]) []

/-- The line that broadcastAllClientNames sends, computed from the map clients. -/
def broadcastAllClientNames (cs : List clientChannel) : String :=
  "Current set of clients: " ++ stringsJoin (collectNames cs) " "

/-- The steps a connection handler performs, in program order. -/
inductive Action where
  /-- go clientWriter(conn, ch) -/
  | goClientWriter (ch : Nat)
  /-- broadcastAllClientNames(ch): reads clients and sends the greeting on ch -/
  | greet (ch : Nat)
  /-- ch <- msg -/
  | tell (ch : Nat) (msg : String)
  /-- a send on messages, entering or leaving, received by the broadcaster -/
  | submit (e : Event)
  /-- go checkIdle(shout, conn) -/
  | goCheckIdle
  /-- shout <- text, received by checkIdle -/
  | shout (text : String)
  /-- conn.Close() -/
  | connClose
deriving DecidableEq, Repr

/-- How the scanner's loop ended; the handler ignores input.Err(). -/
inductive ScanEnd where
  | peerClosed
  | transportError
  | closedByWatchdog
deriving DecidableEq, Repr

/-- The function scan for the lines the scanner yields before it stops. -/
def scan (who : String) : List String → List Action
  | [] => []
  | text :: rest =>
    Action.submit (Event.messages (who ++ ": " ++ text)) :: Action.shout text :: scan who rest

/-- The part of handleConn before the read loop (lines 59-76). -/
def arrive (who : String) (ch : Nat) : List Action :=
  [ Action.goClientWriter ch,
    Action.greet ch,
    Action.tell ch ("You are " ++ who),
    Action.submit (Event.messages (who ++ " has arrived")),
    Action.submit (Event.entering { channel := ch, clientName := who }),
    Action.goCheckIdle ]

/-- The part of handleConn after the read loop (lines 81-83). -/
def depart (who : String) (ch : Nat) : List Action :=
  [ Action.submit (Event.leaving { channel := ch, clientName := who }),
    Action.submit (Event.messages (who ++ " has left")),
    Action.connClose ]

/-- The function handleConn for a connection whose remote address is who, whose
fresh channel is ch, and whose scanner yields lines and then stops. -/
def handleConn (who : String) (ch : Nat) (lines : List String) (_fin : ScanEnd) : List Action :=
  arrive who ch ++ scan who lines ++ depart who ch

/-- The events a list of handler steps submits to the broadcaster, in order. -/
def submitted : List Action → List Event
  | [] => []
  | Action.submit e :: rest => e :: submitted rest
  | _ :: rest => submitted rest

/-- The effect of one handler step on the program state. -/
def exec (s : State) : Action → Option State
  | Action.greet ch => send s ch (broadcastAllClientNames s.clients)
  | Action.tell ch msg => send s ch msg
  | Action.submit e => broadcasterStep s e
  | Action.goClientWriter _ => some s
  | Action.goCheckIdle => some s
  | Action.shout _ => some s
  | Action.connClose => some s

/-- A sequence of handler steps, each followed by the broadcaster's processing
of what it submitted. -/
def execAll (s : State) : List Action → Option State
  | [] => some s
  | a :: rest =>
    match exec s a with
    | none => none
    | some s1 => execAll s1 rest

/-! ## checkIdle (chat.go lines 94-106) -/

/-- What the watchdog's select receives: a tick of the ticker or a value on shout. -/
inductive Signal where
  | tick
  | shout
deriving DecidableEq, Repr

/-- What a run of checkIdle has done on a finite sequence of signals. -/
structure IdleRun where
  /-- c.Close() and ticker.Stop() were executed -/
  closed : Bool
  /-- number of ticks received -/
  ticks : Nat
  /-- the values printed by fmt.Println(countdown) -/
  printed : List Int
  /-- the signals that were not received -/
  unread : List Signal
deriving DecidableEq, Repr

/-- The body of the select statement (lines 98-102): the value of countdown after it. -/
def selectBody (countdown : Int) : Signal → Int
  | Signal.tick => countdown
  | Signal.shout => 10

/-- The for loop of checkIdle from a given value of countdown: the condition
countdown > 0, the body, then the post statement countdown--. -/
def checkIdleLoop (countdown : Int) : List Signal → IdleRun
  | [] =>
    if countdown > 0 then { closed := false, ticks := 0, printed := [countdown], unread := [] }
    else { closed := true, ticks := 0, printed := [], unread := [] }
  | sig :: rest =>
    if countdown > 0 then
      let r := checkIdleLoop (selectBody countdown sig - 1) rest
      { closed := r.closed
        ticks := (if sig = Signal.tick then 1 else 0) + r.ticks
        printed := countdown :: r.printed
        unread := r.unread }
    else { closed := true, ticks := 0, printed := [], unread := sig :: rest }

/-- The function checkIdle: the loop starts with countdown := 10. -/
def checkIdle (signals : List Signal) : IdleRun := checkIdleLoop 10 signals

/-! ## Event sequences the connection handlers produce -/

/-- The channels of the clients that a sequence of events enters. -/
def joinChans : List Event → List Nat
  | [] => []
  | Event.entering c :: rest => c.channel :: joinChans rest
  | _ :: rest => joinChans rest

/-- The channels of the clients that a sequence of events removes. -/
def leaveChans : List Event → List Nat
  | [] => []
  | Event.leaving c :: rest => c.channel :: leaveChans rest
  | _ :: rest => leaveChans rest

/-- Every leaving event comes after an entering event of the same client;
seen holds the clients entered so far. -/
def leavesFollowJoins (seen : List clientChannel) : List Event → Bool
  | [] => true
  | Event.entering c :: rest => leavesFollowJoins (c :: seen) rest
  | Event.leaving c :: rest => decide (c ∈ seen) && leavesFollowJoins seen rest
  | Event.messages _ :: rest => leavesFollowJoins seen rest

/-- The shape of what handlers send: every client has a channel of its own
(handleConn line 59), is entered at most once, is removed at most once, and is
removed only after it has been entered (handleConn lines 72 and 81). -/
def HandlerProduced (evs : List Event) : Prop :=
  (joinChans evs).Nodup ∧ (leaveChans evs).Nodup ∧ leavesFollowJoins [] evs = true

instance (evs : List Event) : Decidable (HandlerProduced evs) := by
  unfold HandlerProduced
  infer_instance

/-- Whether an event is a membership change (entering or leaving). -/
def isMembership : Event → Bool
  | Event.messages _ => false
  | Event.entering _ => true
  | Event.leaving _ => true

/-- The state after the steps of handleConn that precede the read loop. -/
def afterArrive (s : State) (who : String) (ch : Nat) : State :=
  { clients := s.clients ++ [⟨ch, who⟩]
    closed := s.closed
    log := s.log ++ (Op.send ch (broadcastAllClientNames s.clients) ::
      Op.send ch ("You are " ++ who) ::
      (s.clients.map (fun c => Op.send c.channel (who ++ " has arrived")) ++
        [Op.insert ⟨ch, who⟩])) }

/-! ## Basic facts about the primitives -/

theorem sentOn_append (ch : Nat) (l1 l2 : List Op) :
    sentOn ch (l1 ++ l2) = sentOn ch l1 ++ sentOn ch l2 := by
  induction l1 with
  | nil => rfl
  | cons op rest ih =>
    cases op with
    | send c m =>
      by_cases h : c = ch
      · simp [sentOn, h, ih]
      · simp [sentOn, h, ih]
    | insert cli => simp [sentOn, ih]
    | delete cli => simp [sentOn, ih]
    | close c => simp [sentOn, ih]

theorem send_eq_some {s : State} {ch : Nat} {msg : String} {s1 : State} :
    send s ch msg = some s1 ↔
      ch ∉ s.closed ∧ s1 = { s with log := s.log ++ [Op.send ch msg] } := by
  unfold send
  by_cases h : ch ∈ s.closed
  · simp [h]
  · simp [h, eq_comm]

theorem closeChan_eq_some {s : State} {ch : Nat} {s1 : State} :
    closeChan s ch = some s1 ↔
      ch ∉ s.closed ∧
        s1 = { s with closed := ch :: s.closed, log := s.log ++ [Op.close ch] } := by
  unfold closeChan
  by_cases h : ch ∈ s.closed
  · simp [h]
  · simp [h, eq_comm]

theorem rangeSend_eq_some (msg : String) (cs : List clientChannel) (s s1 : State) :
    rangeSend msg cs s = some s1 ↔
      (∀ c ∈ cs, c.channel ∉ s.closed) ∧
        s1 = { s with log := s.log ++ cs.map (fun c => Op.send c.channel msg) } := by
  induction cs generalizing s with
  | nil => simp [rangeSend, eq_comm]
  | cons c rest ih =>
    by_cases h : c.channel ∈ s.closed
    · have hs : send s c.channel msg = none := by simp [send, h]
      simp [rangeSend, hs, h]
    · have hs : send s c.channel msg =
          some { s with log := s.log ++ [Op.send c.channel msg] } := by simp [send, h]
      simp [rangeSend, hs, h, ih]

/-- The messages that one pass of the broadcast loop puts on channel ch. -/
theorem sentOn_map_send (ch : Nat) (msg : String) (cs : List clientChannel)
    (hs : (cs.map clientChannel.channel).Nodup) :
    sentOn ch (cs.map (fun c => Op.send c.channel msg)) =
      if ch ∈ cs.map clientChannel.channel then [msg] else [] := by
  induction cs with
  | nil => simp [sentOn]
  | cons c rest ih =>
    simp only [List.map_cons, List.nodup_cons] at hs
    by_cases h : c.channel = ch
    · have hn : ch ∉ rest.map clientChannel.channel := h ▸ hs.1
      simp [sentOn, h, ih hs.2, hn]
    · have h2 : ¬ ch = c.channel := fun e => h e.symm
      simp [sentOn, h, h2, ih hs.2]

theorem broadcasterStep_messages {s s1 : State} {msg : String} :
    broadcasterStep s (Event.messages msg) = some s1 ↔
      (∀ c ∈ s.clients, c.channel ∉ s.closed) ∧
        s1 = { s with log := s.log ++ s.clients.map (fun c => Op.send c.channel msg) } := by
  simp [broadcasterStep, rangeSend_eq_some]

theorem broadcasterStep_leaving {s s1 : State} {cli : clientChannel} :
    broadcasterStep s (Event.leaving cli) = some s1 ↔
      cli.channel ∉ s.closed ∧
        s1 = { clients := s.clients.filter (fun d => decide (d ≠ cli))
               closed := cli.channel :: s.closed
               log := s.log ++ [Op.delete cli, Op.close cli.channel] } := by
  simp [broadcasterStep, closeChan_eq_some, mapDelete]

theorem broadcaster_append (s : State) (xs ys : List Event) :
    broadcaster s (xs ++ ys) = (broadcaster s xs).bind (fun s1 => broadcaster s1 ys) := by
  induction xs generalizing s with
  | nil => simp [broadcaster]
  | cons e rest ih =>
    cases h : broadcasterStep s e with
    | none => simp [broadcaster, h]
    | some s1 => simp [broadcaster, h, ih]

/-! ## Broadcast fan-out -/

/-- C2: in a state where every registered client has an open sink of its own,
processing one messages event completes, puts the text exactly once on the sink
of each client in the registry, puts nothing on any other sink, and leaves the
registry and the set of closed channels as they were. -/
theorem broadcast_once_to_each_registered (s : State) (M : String)
    (hopen : ∀ c ∈ s.clients, c.channel ∉ s.closed)
    (hsinks : (s.clients.map clientChannel.channel).Nodup) :
    ∃ s1, broadcasterStep s (Event.messages M) = some s1 ∧
      s1.clients = s.clients ∧ s1.closed = s.closed ∧
      (∀ c ∈ s.clients, delivered c.channel s1 = delivered c.channel s ++ [M]) ∧
      (∀ ch, ch ∉ s.clients.map clientChannel.channel →
        delivered ch s1 = delivered ch s) := by
  refine ⟨_, broadcasterStep_messages.mpr ⟨hopen, rfl⟩, rfl, rfl, ?_, ?_⟩
  · intro c hc
    have hm : c.channel ∈ s.clients.map clientChannel.channel := List.mem_map_of_mem _ hc
    simp only [delivered, sentOn_append, sentOn_map_send _ _ _ hsinks, if_pos hm]
  · intro ch hch
    simp only [delivered, sentOn_append, sentOn_map_send _ _ _ hsinks, if_neg hch,
      List.append_nil]

theorem broadcast_once_to_each_registered_witness :
    ∃ s1, broadcasterStep
        { clients := [⟨1, "A"⟩, ⟨2, "B"⟩], closed := [3], log := [Op.send 1 "x"] }
        (Event.messages "hi") = some s1 ∧
      s1.clients = [⟨1, "A"⟩, ⟨2, "B"⟩] ∧ s1.closed = [3] ∧
      delivered 1 s1 = ["x", "hi"] ∧ delivered 2 s1 = ["hi"] ∧ delivered 3 s1 = [] := by
  obtain ⟨s1, h1, h2, h3, h4, h5⟩ := broadcast_once_to_each_registered
    { clients := [⟨1, "A"⟩, ⟨2, "B"⟩], closed := [3], log := [Op.send 1 "x"] } "hi"
    (by decide) (by decide)
  refine ⟨s1, h1, h2, h3, ?_, ?_, ?_⟩
  · exact h4 ⟨1, "A"⟩ (by decide)
  · exact h4 ⟨2, "B"⟩ (by decide)
  · exact h5 3 (by decide)

/-! ## Leave of a client that is not registered -/

/-- C4 (as the code has it): for a client that is not in the registry and whose
sink has not been closed, processing leaving completes, leaves the registry
and every sink's received lines unchanged, and closes the client's sink. -/
theorem leave_of_absent_client_with_open_sink (s : State) (cli : clientChannel)
    (habsent : cli ∉ s.clients) (hopen : cli.channel ∉ s.closed) :
    ∃ s1, broadcasterStep s (Event.leaving cli) = some s1 ∧
      s1.clients = s.clients ∧ s1.closed = cli.channel :: s.closed ∧
      ∀ ch, delivered ch s1 = delivered ch s := by
  refine ⟨_, broadcasterStep_leaving.mpr ⟨hopen, rfl⟩, ?_, rfl, ?_⟩
  · show s.clients.filter (fun d => decide (d ≠ cli)) = s.clients
    rw [List.filter_eq_self]
    intro d hd
    have : d ≠ cli := fun e => habsent (e ▸ hd)
    simpa using this
  · intro ch
    simp [delivered, sentOn_append, sentOn]

theorem leave_of_absent_client_with_open_sink_witness :
    ∃ s1, broadcasterStep { clients := [⟨1, "A"⟩], closed := [3], log := [] }
        (Event.leaving ⟨2, "B"⟩) = some s1 ∧
      s1.clients = [⟨1, "A"⟩] ∧ s1.closed = [2, 3] ∧
      ∀ ch, delivered ch s1 = [] := by
  obtain ⟨s1, h1, h2, h3, h4⟩ := leave_of_absent_client_with_open_sink
    { clients := [⟨1, "A"⟩], closed := [3], log := [] } ⟨2, "B"⟩ (by decide) (by decide)
  exact ⟨s1, h1, h2, h3, fun ch => by rw [h4 ch]; rfl⟩

/-- C4 fails as stated: after entering and leaving of a client have been
processed the client is not in the registry, and a further leaving of it makes
the broadcaster panic (close of a closed channel). -/
theorem leave_after_leave_panics :
    ∃ s, broadcaster init [Event.entering ⟨1, "A"⟩, Event.leaving ⟨1, "A"⟩] = some s ∧
      (⟨1, "A"⟩ : clientChannel) ∉ s.clients ∧
      broadcasterStep s (Event.leaving ⟨1, "A"⟩) = none := by
  refine ⟨_, rfl, ?_, ?_⟩ <;> decide

/-! ## Idle watchdog -/

theorem checkIdleLoop_zero (signals : List Signal) :
    checkIdleLoop 0 signals =
      { closed := true, ticks := 0, printed := [], unread := signals } := by
  cases signals <;> simp [checkIdleLoop]

theorem checkIdleLoop_tick (countdown : Int) (h : countdown > 0) (rest : List Signal) :
    checkIdleLoop countdown (Signal.tick :: rest) =
      { closed := (checkIdleLoop (countdown - 1) rest).closed
        ticks := 1 + (checkIdleLoop (countdown - 1) rest).ticks
        printed := countdown :: (checkIdleLoop (countdown - 1) rest).printed
        unread := (checkIdleLoop (countdown - 1) rest).unread } := by
  simp [checkIdleLoop, h, selectBody]

/-- C5: when only ticks arrive, checkIdle has not closed the connection after
fewer than 10 ticks, and with 10 or more ticks available it closes the
connection having received exactly 10 of them and receives nothing afterwards. -/
theorem checkIdle_closes_after_exactly_ten_ticks :
    (∀ k, k < 10 →
      (checkIdle (List.replicate k Signal.tick)).closed = false ∧
      (checkIdle (List.replicate k Signal.tick)).ticks = k) ∧
    (∀ m, checkIdle (List.replicate (10 + m) Signal.tick) =
      { closed := true, ticks := 10, printed := [10, 9, 8, 7, 6, 5, 4, 3, 2, 1],
        unread := List.replicate m Signal.tick }) := by
  constructor
  · decide
  · intro m
    have h : List.replicate (10 + m) Signal.tick =
        Signal.tick :: Signal.tick :: Signal.tick :: Signal.tick :: Signal.tick ::
        Signal.tick :: Signal.tick :: Signal.tick :: Signal.tick :: Signal.tick ::
        List.replicate m Signal.tick := by
      rw [Nat.add_comm]
      rfl
    rw [h]
    simp [checkIdle, checkIdleLoop_tick, checkIdleLoop_zero]

/-- From every positive value of countdown, a value on shout followed by 9
ticks ends the loop: the connection is closed. -/
theorem checkIdleLoop_shout_then_nine_ticks (countdown : Int) (h : countdown > 0) :
    (checkIdleLoop countdown (Signal.shout :: List.replicate 9 Signal.tick)).closed = true ∧
    (checkIdleLoop countdown (Signal.shout :: List.replicate 9 Signal.tick)).ticks = 9 := by
  have e : List.replicate 9 Signal.tick =
      [Signal.tick, Signal.tick, Signal.tick, Signal.tick, Signal.tick,
       Signal.tick, Signal.tick, Signal.tick, Signal.tick] := rfl
  rw [e]
  simp [checkIdleLoop, h, selectBody]

/-- C6 (what the code does): a value on shout sets countdown to 10 and the
loop's post statement then decrements it, so the next value printed is 9 and
the connection is closed 9 ticks after the signal, at the start of a run as
well as after some ticks; a tenth tick after the signal is not received. -/
theorem checkIdle_closes_nine_ticks_after_activity :
    (checkIdle (Signal.shout :: List.replicate 9 Signal.tick)).closed = true ∧
    (checkIdle (Signal.shout :: List.replicate 8 Signal.tick)).closed = false ∧
    (checkIdle (Signal.shout :: List.replicate 10 Signal.tick)).unread = [Signal.tick] ∧
    (checkIdle (Signal.shout :: List.replicate 10 Signal.tick)).printed =
      [10, 9, 8, 7, 6, 5, 4, 3, 2, 1] ∧
    (checkIdle (Signal.tick :: Signal.tick :: Signal.tick :: Signal.shout ::
      List.replicate 9 Signal.tick)).closed = true ∧
    (checkIdle (Signal.tick :: Signal.tick :: Signal.tick :: Signal.shout ::
      List.replicate 9 Signal.tick)).printed = [10, 9, 8, 7, 9, 8, 7, 6, 5, 4, 3, 2, 1] := by
  decide

/-! ## Registry contents after a sequence of events -/

theorem mem_mapInsert (s : State) (cli d : clientChannel) :
    d ∈ (mapInsert s cli).clients ↔ d ∈ s.clients ∨ d = cli := by
  unfold mapInsert
  by_cases h : cli ∈ s.clients
  · simp only [h, if_true]
    constructor
    · exact Or.inl
    · rintro (h1 | h1)
      · exact h1
      · exact h1 ▸ h
  · simp [h]

theorem nodup_mapInsert (s : State) (cli : clientChannel) (h : s.clients.Nodup) :
    (mapInsert s cli).clients.Nodup := by
  unfold mapInsert
  by_cases hc : cli ∈ s.clients
  · simpa [hc] using h
  · simp only [hc, if_false]
    exact List.Nodup.append h (List.nodup_singleton cli) (by simpa using hc)

theorem broadcasterStep_nodup {s s1 : State} {e : Event}
    (h : broadcasterStep s e = some s1) (hn : s.clients.Nodup) : s1.clients.Nodup := by
  cases e with
  | messages msg =>
    obtain ⟨_, rfl⟩ := broadcasterStep_messages.mp h
    exact hn
  | entering cli =>
    simp only [broadcasterStep, Option.some.injEq] at h
    subst h
    exact nodup_mapInsert s cli hn
  | leaving cli =>
    obtain ⟨_, rfl⟩ := broadcasterStep_leaving.mp h
    exact hn.filter _

theorem broadcaster_nodup (evs : List Event) (s s1 : State)
    (h : broadcaster s evs = some s1) (hn : s.clients.Nodup) : s1.clients.Nodup := by
  induction evs generalizing s with
  | nil =>
    simp only [broadcaster, Option.some.injEq] at h
    exact h ▸ hn
  | cons e rest ih =>
    cases hs : broadcasterStep s e with
    | none => simp [broadcaster, hs] at h
    | some s0 =>
      simp only [broadcaster, hs] at h
      exact ih s0 h (broadcasterStep_nodup hs hn)

/-- Unfolding, by one event, of: the sequence enters c and does not remove it later. -/
theorem entered_not_left_cons (c : clientChannel) (e : Event) (rest : List Event) :
    (∃ pre post, e :: rest = pre ++ Event.entering c :: post ∧ Event.leaving c ∉ post) ↔
      (e = Event.entering c ∧ Event.leaving c ∉ rest) ∨
      (∃ pre post, rest = pre ++ Event.entering c :: post ∧ Event.leaving c ∉ post) := by
  constructor
  · rintro ⟨pre, post, h, hn⟩
    cases pre with
    | nil =>
      simp only [List.nil_append, List.cons.injEq] at h
      exact Or.inl ⟨h.1, h.2 ▸ hn⟩
    | cons a pre1 =>
      simp only [List.cons_append, List.cons.injEq] at h
      exact Or.inr ⟨pre1, post, h.2, hn⟩
  · rintro (⟨h1, h2⟩ | ⟨pre, post, h, hn⟩)
    · exact ⟨[], rest, by simp [h1], h2⟩
    · exact ⟨e :: pre, post, by simp [h], hn⟩

theorem mem_clients_after (c : clientChannel) (evs : List Event) (s s1 : State)
    (h : broadcaster s evs = some s1) :
    c ∈ s1.clients ↔
      (∃ pre post, evs = pre ++ Event.entering c :: post ∧ Event.leaving c ∉ post) ∨
      (c ∈ s.clients ∧ Event.leaving c ∉ evs) := by
  induction evs generalizing s with
  | nil =>
    simp only [broadcaster, Option.some.injEq] at h
    subst h
    simp
  | cons e rest ih =>
    cases hs : broadcasterStep s e with
    | none => simp [broadcaster, hs] at h
    | some s0 =>
      simp only [broadcaster, hs] at h
      rw [ih s0 h, entered_not_left_cons]
      cases e with
      | messages msg =>
        obtain ⟨_, rfl⟩ := broadcasterStep_messages.mp hs
        simp
      | entering cli =>
        simp only [broadcasterStep, Option.some.injEq] at hs
        subst hs
        rw [mem_mapInsert]
        simp only [List.mem_cons, Event.entering.injEq, not_or, reduceCtorEq, not_false_eq_true,
          true_and]
        constructor
        · rintro (h1 | ⟨h1 | h1, h2⟩)
          · exact Or.inl (Or.inr h1)
          · exact Or.inr ⟨h1, h2⟩
          · exact Or.inl (Or.inl ⟨h1.symm, h2⟩)
        · rintro ((⟨h1, h2⟩ | h1) | ⟨h1, h2⟩)
          · exact Or.inr ⟨Or.inr h1.symm, h2⟩
          · exact Or.inl h1
          · exact Or.inr ⟨Or.inl h1, h2⟩
      | leaving cli =>
        obtain ⟨_, rfl⟩ := broadcasterStep_leaving.mp hs
        simp only [List.mem_filter, decide_eq_true_eq, List.mem_cons, Event.leaving.injEq,
          not_or, reduceCtorEq, false_and, false_or]
        constructor
        · rintro (h1 | ⟨⟨h1, h2⟩, h3⟩)
          · exact Or.inl h1
          · exact Or.inr ⟨h1, h2, h3⟩
        · rintro (h1 | ⟨h1, h2, h3⟩)
          · exact Or.inl h1
          · exact Or.inr ⟨⟨h1, h2⟩, h3⟩

/-- A run of the broadcaster that completes has closed no channel twice. -/
theorem leaveChans_nodup_of_run (evs : List Event) (s s1 : State)
    (h : broadcaster s evs = some s1) :
    (leaveChans evs).Nodup ∧ (∀ ch ∈ leaveChans evs, ch ∉ s.closed) ∧
      ∀ ch ∈ s.closed, ch ∈ s1.closed := by
  induction evs generalizing s with
  | nil =>
    simp only [broadcaster, Option.some.injEq] at h
    subst h
    simp [leaveChans]
  | cons e rest ih =>
    cases hs : broadcasterStep s e with
    | none => simp [broadcaster, hs] at h
    | some s0 =>
      simp only [broadcaster, hs] at h
      obtain ⟨ih1, ih2, ih3⟩ := ih s0 h
      cases e with
      | messages msg =>
        obtain ⟨_, rfl⟩ := broadcasterStep_messages.mp hs
        exact ⟨ih1, ih2, ih3⟩
      | entering cli =>
        simp only [broadcasterStep, Option.some.injEq] at hs
        subst hs
        exact ⟨ih1, ih2, ih3⟩
      | leaving cli =>
        obtain ⟨hopen, rfl⟩ := broadcasterStep_leaving.mp hs
        simp only [leaveChans, List.nodup_cons, List.mem_cons, not_or] at ih1 ih2 ih3 ⊢
        refine ⟨⟨fun hm => (ih2 _ hm).1 rfl, ih1⟩, ?_, fun ch hch => ih3 ch (Or.inr hch)⟩
        rintro ch (rfl | hm)
        · exact hopen
        · exact (ih2 ch hm).2

/-- A sequence of membership events that closes no channel twice is processed to the end. -/
theorem membership_run_completes (evs : List Event) (s : State)
    (hm : ∀ e ∈ evs, isMembership e = true)
    (hn : (leaveChans evs).Nodup) (hc : ∀ ch ∈ leaveChans evs, ch ∉ s.closed) :
    ∃ s1, broadcaster s evs = some s1 := by
  induction evs generalizing s with
  | nil => exact ⟨s, rfl⟩
  | cons e rest ih =>
    have hm1 : ∀ e ∈ rest, isMembership e = true := fun x hx => hm x (List.mem_cons_of_mem _ hx)
    cases e with
    | messages msg => simpa [isMembership] using hm (Event.messages msg) (List.mem_cons_self _ _)
    | entering cli =>
      simp only [broadcaster, broadcasterStep]
      exact ih (mapInsert s cli) hm1 hn hc
    | leaving cli =>
      simp only [leaveChans, List.nodup_cons, List.mem_cons] at hn hc
      have hstep := broadcasterStep_leaving.mpr
        ⟨hc cli.channel (Or.inl rfl), rfl⟩
      simp only [broadcaster, hstep]
      apply ih _ hm1 hn.2
      intro ch hch
      simp only [List.mem_cons, not_or]
      exact ⟨fun e => hn.1 (e ▸ hch), hc ch (Or.inr hch)⟩

/-- C1 fails as stated: entering, leaving, entering and leaving again of one
client is a sequence of membership events, and the broadcaster does not
process it to the end: the second leaving closes a closed channel and panics,
so there is no registry afterwards. -/
theorem second_leave_of_same_sink_ends_run :
    (∀ e ∈ [Event.entering ⟨1, "A"⟩, Event.leaving ⟨1, "A"⟩,
        Event.entering ⟨1, "A"⟩, Event.leaving ⟨1, "A"⟩], isMembership e = true) ∧
    broadcaster init [Event.entering ⟨1, "A"⟩, Event.leaving ⟨1, "A"⟩,
      Event.entering ⟨1, "A"⟩] ≠ none ∧
    broadcaster init [Event.entering ⟨1, "A"⟩, Event.leaving ⟨1, "A"⟩,
      Event.entering ⟨1, "A"⟩, Event.leaving ⟨1, "A"⟩] = none := by
  decide

/-- C1 (as the code has it): every sequence of entering and leaving events in
which no two leaving events name the same sink is processed to the end from
the empty registry, and afterwards a client is in the registry if and only if
the sequence enters it with no later leaving of it, the registry holds no
client twice, and holds no client whose leaving comes after its last entering. -/
theorem registry_is_entered_not_left (evs : List Event)
    (hm : ∀ e ∈ evs, isMembership e = true)
    (hn : (leaveChans evs).Nodup) :
    ∃ s, broadcaster init evs = some s ∧
      (∀ c, c ∈ s.clients ↔
        ∃ pre post, evs = pre ++ Event.entering c :: post ∧ Event.leaving c ∉ post) ∧
      s.clients.Nodup ∧
      (∀ c pre post, evs = pre ++ Event.leaving c :: post → Event.entering c ∉ post →
        c ∉ s.clients) := by
  obtain ⟨s, hs⟩ := membership_run_completes evs init hm hn (by simp [init])
  refine ⟨s, hs, ?_, broadcaster_nodup evs init s hs (by simp [init]), ?_⟩
  · intro c
    rw [mem_clients_after c evs init s hs]
    simp [init]
  · intro c pre post hsplit hnj hmem
    have hs1 := hs
    rw [hsplit, broadcaster_append] at hs1
    cases h0 : broadcaster init pre with
    | none => simp [h0] at hs1
    | some s0 =>
      simp only [h0, Option.some_bind, broadcaster] at hs1
      cases h2 : broadcasterStep s0 (Event.leaving c) with
      | none => simp [h2] at hs1
      | some s2 =>
        simp only [h2] at hs1
        obtain ⟨_, rfl⟩ := broadcasterStep_leaving.mp h2
        rw [mem_clients_after c post _ s hs1] at hmem
        rcases hmem with ⟨p1, p2, hp, _⟩ | ⟨hin, _⟩
        · exact hnj (by simp [hp])
        · simp at hin

theorem registry_is_entered_not_left_witness :
    ∃ s, broadcaster init
        [Event.entering ⟨1, "A"⟩, Event.entering ⟨2, "B"⟩, Event.entering ⟨1, "A"⟩,
         Event.leaving ⟨2, "B"⟩, Event.entering ⟨2, "B"⟩, Event.leaving ⟨3, "C"⟩] = some s ∧
      s.clients.Nodup ∧ (⟨3, "C"⟩ : clientChannel) ∉ s.clients ∧
      ((⟨1, "A"⟩ : clientChannel) ∈ s.clients ↔
        ∃ pre post, [Event.entering ⟨1, "A"⟩, Event.entering ⟨2, "B"⟩, Event.entering ⟨1, "A"⟩,
          Event.leaving ⟨2, "B"⟩, Event.entering ⟨2, "B"⟩, Event.leaving ⟨3, "C"⟩] =
            pre ++ Event.entering ⟨1, "A"⟩ :: post ∧ Event.leaving ⟨1, "A"⟩ ∉ post) := by
  obtain ⟨s, hs, h1, h2, h3⟩ := registry_is_entered_not_left
    [Event.entering ⟨1, "A"⟩, Event.entering ⟨2, "B"⟩, Event.entering ⟨1, "A"⟩,
     Event.leaving ⟨2, "B"⟩, Event.entering ⟨2, "B"⟩, Event.leaving ⟨3, "C"⟩]
    (by decide) (by decide)
  exact ⟨s, hs, h2,
    h3 ⟨3, "C"⟩
      [Event.entering ⟨1, "A"⟩, Event.entering ⟨2, "B"⟩, Event.entering ⟨1, "A"⟩,
       Event.leaving ⟨2, "B"⟩, Event.entering ⟨2, "B"⟩] [] rfl (by decide),
    h1 ⟨1, "A"⟩⟩

/-! ## Closing of sinks -/

/-- What one event adds to the log: operations on channels that were open
before the event, and every channel it closes is closed afterwards. -/
theorem broadcasterStep_log {s s1 : State} {e : Event} (h : broadcasterStep s e = some s1) :
    ∃ t, s1.log = s.log ++ t ∧
      (∀ ch, Op.close ch ∈ t → ch ∉ s.closed ∧ ch ∈ s1.closed) ∧
      (∀ ch m, Op.send ch m ∈ t → ch ∉ s.closed) := by
  cases e with
  | messages msg =>
    obtain ⟨hopen, rfl⟩ := broadcasterStep_messages.mp h
    refine ⟨_, rfl, ?_, ?_⟩
    · intro ch hch
      simp at hch
    · intro ch m hm
      simp only [List.mem_map, Op.send.injEq] at hm
      obtain ⟨c, hc, hc1, _⟩ := hm
      exact hc1 ▸ hopen c hc
  | entering cli =>
    simp only [broadcasterStep, Option.some.injEq] at h
    subst h
    exact ⟨[Op.insert cli], rfl, by simp, by simp⟩
  | leaving cli =>
    obtain ⟨hopen, rfl⟩ := broadcasterStep_leaving.mp h
    refine ⟨_, rfl, ?_, by simp⟩
    intro ch hch
    simp only [List.mem_cons, reduceCtorEq, Op.close.injEq, List.mem_singleton, false_or,
      List.not_mem_nil, or_false] at hch
    subst hch
    exact ⟨hopen, List.mem_cons_self _ _⟩

theorem broadcaster_log (evs : List Event) (s s1 : State) (h : broadcaster s evs = some s1) :
    ∃ t, s1.log = s.log ++ t ∧
      (∀ ch, Op.close ch ∈ t → ch ∉ s.closed ∧ ch ∈ s1.closed) ∧
      (∀ ch m, Op.send ch m ∈ t → ch ∉ s.closed) := by
  induction evs generalizing s with
  | nil =>
    simp only [broadcaster, Option.some.injEq] at h
    subst h
    exact ⟨[], by simp, by simp, by simp⟩
  | cons e rest ih =>
    cases hs : broadcasterStep s e with
    | none => simp [broadcaster, hs] at h
    | some s0 =>
      simp only [broadcaster, hs] at h
      obtain ⟨t0, hl0, hc0, hm0⟩ := broadcasterStep_log hs
      obtain ⟨t1, hl1, hc1, hm1⟩ := ih s0 h
      have hmono0 : ∀ ch ∈ s.closed, ch ∈ s0.closed :=
        (leaveChans_nodup_of_run [e] s s0 (by simp [broadcaster, hs])).2.2
      have hmono1 : ∀ ch ∈ s0.closed, ch ∈ s1.closed :=
        (leaveChans_nodup_of_run rest s0 s1 h).2.2
      refine ⟨t0 ++ t1, by rw [hl1, hl0, List.append_assoc], ?_, ?_⟩
      · intro ch hch
        rcases List.mem_append.mp hch with h0 | h1
        · exact ⟨(hc0 ch h0).1, hmono1 ch (hc0 ch h0).2⟩
        · exact ⟨fun hin => (hc1 ch h1).1 (hmono0 ch hin), (hc1 ch h1).2⟩
      · intro ch m hm
        rcases List.mem_append.mp hm with h0 | h1
        · exact hm0 ch m h0
        · exact fun hin => hm1 ch m h1 (hmono0 ch hin)

/-- Event sequences of the shape handlers produce are processed to the end, and
afterwards every registered client has an open sink of its own. -/
theorem handler_run_completes (evs : List Event) (s : State) (seen : List clientChannel)
    (hreg : (s.clients.map clientChannel.channel).Nodup)
    (hopen : ∀ d ∈ s.clients, d.channel ∉ s.closed)
    (hj : (joinChans evs).Nodup)
    (hj2 : ∀ ch ∈ joinChans evs, ch ∉ s.closed ∧ ch ∉ s.clients.map clientChannel.channel)
    (hl : (leaveChans evs).Nodup)
    (hl2 : ∀ ch ∈ leaveChans evs, ch ∉ s.closed)
    (hseen : ∀ d ∈ seen, d ∈ s.clients ∨ d.channel ∈ s.closed)
    (hf : leavesFollowJoins seen evs = true) :
    ∃ s1, broadcaster s evs = some s1 ∧
      (s1.clients.map clientChannel.channel).Nodup ∧
      ∀ d ∈ s1.clients, d.channel ∉ s1.closed := by
  induction evs generalizing s seen with
  | nil => exact ⟨s, rfl, hreg, hopen⟩
  | cons e rest ih =>
    cases e with
    | messages msg =>
      have hstep : broadcasterStep s (Event.messages msg) = some _ :=
        broadcasterStep_messages.mpr ⟨hopen, rfl⟩
      simp only [broadcaster, hstep]
      exact ih _ seen hreg hopen hj hj2 hl hl2 hseen hf
    | entering cli =>
      simp only [joinChans, List.nodup_cons, List.mem_cons, forall_eq_or_imp] at hj hj2
      obtain ⟨⟨hcl, hcr⟩, hj3⟩ := hj2
      have hnot : cli ∉ s.clients := fun hin => hcr (List.mem_map_of_mem _ hin)
      have hcs : (mapInsert s cli).clients = s.clients ++ [cli] := by simp [mapInsert, hnot]
      simp only [broadcaster, broadcasterStep]
      apply ih (mapInsert s cli) (cli :: seen)
      · rw [hcs, List.map_append]
        exact List.Nodup.append hreg (List.nodup_singleton _) (by simpa using hcr)
      · intro d hd
        rw [hcs] at hd
        rcases List.mem_append.mp hd with h1 | h1
        · exact hopen d h1
        · rw [List.mem_singleton.mp h1]
          exact hcl
      · exact hj.2
      · intro ch hch
        refine ⟨(hj3 ch hch).1, ?_⟩
        rw [hcs, List.map_append, List.mem_append]
        rintro (h1 | h1)
        · exact (hj3 ch hch).2 h1
        · simp only [List.map_cons, List.map_nil, List.mem_singleton] at h1
          exact hj.1 (h1 ▸ hch)
      · exact hl
      · exact hl2
      · intro d hd
        rcases List.mem_cons.mp hd with h1 | h1
        · left
          rw [hcs, h1]
          simp
        · rcases hseen d h1 with h2 | h2
          · left
            rw [hcs]
            exact List.mem_append_left _ h2
          · exact Or.inr h2
      · exact hf
    | leaving cli =>
      simp only [leaveChans, List.nodup_cons, List.mem_cons, forall_eq_or_imp] at hl hl2
      simp only [leavesFollowJoins, Bool.and_eq_true, decide_eq_true_eq] at hf
      have hin : cli ∈ s.clients := by
        rcases hseen cli hf.1 with h1 | h1
        · exact h1
        · exact absurd h1 hl2.1
      have hstep := broadcasterStep_leaving.mpr ⟨hl2.1, rfl⟩
      have hsub : ∀ d, d ∈ s.clients.filter (fun d => decide (d ≠ cli)) →
          d ∈ s.clients ∧ d.channel ≠ cli.channel := by
        intro d hd
        simp only [List.mem_filter, decide_eq_true_eq] at hd
        refine ⟨hd.1, fun hch => hd.2 ?_⟩
        exact List.inj_on_of_nodup_map hreg hd.1 hin hch
      simp only [broadcaster, hstep]
      apply ih _ seen
      · exact hreg.sublist ((List.filter_sublist _).map _)
      · intro d hd
        simp only [List.mem_cons, not_or]
        exact ⟨(hsub d hd).2, hopen d (hsub d hd).1⟩
      · exact hj
      · intro ch hch
        simp only [List.mem_cons, not_or, List.mem_map, not_exists, not_and]
        refine ⟨⟨?_, (hj2 ch hch).1⟩, ?_⟩
        · intro e
          exact (hj2 ch hch).2 (e ▸ List.mem_map_of_mem _ hin)
        · intro d hd hdc
          exact (hj2 ch hch).2 (hdc ▸ List.mem_map_of_mem _ (hsub d hd).1)
      · exact hl.2
      · intro ch hch
        simp only [List.mem_cons, not_or]
        exact ⟨fun e => hl.1 (e ▸ hch), hl2.2 ch hch⟩
      · intro d hd
        rcases hseen d hd with h1 | h1
        · by_cases hdc : d = cli
          · right
            rw [hdc]
            exact List.mem_cons_self _ _
          · left
            simp only [List.mem_filter, decide_eq_true_eq]
            exact ⟨h1, hdc⟩
        · exact Or.inr (List.mem_cons_of_mem _ h1)
      · exact hf.2

/-- C3: when every client has its own channel, is entered at most once, and is
removed at most once and only after it was entered, the broadcaster processes
the whole sequence; for a client that is removed, the log holds the close of
its sink exactly once, immediately after the delete of the client from the
registry, nothing is sent on that sink afterwards, and the client is not in
the registry at the end. -/
theorem sink_closed_once_after_removal (evs : List Event) (c : clientChannel)
    (hp : HandlerProduced evs) (hleft : Event.leaving c ∈ evs) :
    ∃ s, broadcaster init evs = some s ∧
      (∃ t1 t2, s.log = t1 ++ Op.delete c :: Op.close c.channel :: t2 ∧
        Op.close c.channel ∉ t1 ∧ Op.close c.channel ∉ t2 ∧
        ∀ m, Op.send c.channel m ∉ t2) ∧
      s.log.count (Op.close c.channel) = 1 ∧
      c ∉ s.clients := by
  obtain ⟨hj, hl, hf⟩ := hp
  obtain ⟨s, hs, _, hopen⟩ := handler_run_completes evs init [] (by simp [init])
    (by simp [init]) hj (by simp [init]) hl (by simp [init]) (by simp) hf
  obtain ⟨pre, post, hsplit⟩ := List.append_of_mem hleft
  have hs1 := hs
  rw [hsplit, broadcaster_append] at hs1
  cases h0 : broadcaster init pre with
  | none => simp [h0] at hs1
  | some s0 =>
    simp only [h0, Option.some_bind, broadcaster] at hs1
    cases h2 : broadcasterStep s0 (Event.leaving c) with
    | none => simp [h2] at hs1
    | some s2 =>
      simp only [h2] at hs1
      obtain ⟨hcopen, hs2⟩ := broadcasterStep_leaving.mp h2
      obtain ⟨t1, hl1, hc1, _⟩ := broadcaster_log pre init s0 h0
      obtain ⟨t2, hl2, hc2, hm2⟩ := broadcaster_log post s2 s hs1
      have hclosed2 : c.channel ∈ s2.closed := by
        rw [hs2]
        exact List.mem_cons_self _ _
      have hclosed : c.channel ∈ s.closed :=
        (leaveChans_nodup_of_run post s2 s hs1).2.2 _ hclosed2
      have hlog : s.log = t1 ++ Op.delete c :: Op.close c.channel :: t2 := by
        rw [hl2, hs2]
        simp only [hl1, init, List.nil_append, List.append_assoc, List.cons_append]
      have hn1 : Op.close c.channel ∉ t1 := fun hin => hcopen (hc1 _ hin).2
      have hn2 : Op.close c.channel ∉ t2 := fun hin => (hc2 _ hin).1 hclosed2
      refine ⟨s, hs, ⟨t1, t2, hlog, hn1, hn2, fun m hin => hm2 _ m hin hclosed2⟩, ?_,
        fun hin => hopen c hin hclosed⟩
      rw [hlog, List.count_append, List.count_eq_zero_of_not_mem hn1]
      simp [List.count_cons, List.count_eq_zero_of_not_mem hn2]

theorem sink_closed_once_after_removal_witness :
    ∃ s, broadcaster init
        [Event.messages "A has arrived", Event.entering ⟨1, "A"⟩, Event.messages "A: hi",
         Event.leaving ⟨1, "A"⟩, Event.messages "A has left"] = some s ∧
      (∃ t1 t2, s.log = t1 ++ Op.delete ⟨1, "A"⟩ :: Op.close 1 :: t2 ∧
        Op.close 1 ∉ t1 ∧ Op.close 1 ∉ t2 ∧ ∀ m, Op.send 1 m ∉ t2) ∧
      s.log.count (Op.close 1) = 1 ∧
      (⟨1, "A"⟩ : clientChannel) ∉ s.clients :=
  sink_closed_once_after_removal
    [Event.messages "A has arrived", Event.entering ⟨1, "A"⟩, Event.messages "A: hi",
     Event.leaving ⟨1, "A"⟩, Event.messages "A has left"] ⟨1, "A"⟩ (by decide) (by decide)

/-! ## Connection handler -/

theorem collectNames_eq_map (cs : List clientChannel) :
    collectNames cs = cs.map clientChannel.clientName := by
  have h : ∀ (acc : List String),
      cs.foldl (fun clientNames cli => clientNames ++ [cli.clientName]) acc =
        acc ++ cs.map clientChannel.clientName := by
    induction cs with
    | nil => simp
    | cons c rest ih =>
      intro acc
      simp [ih]
  simpa [collectNames] using h []

theorem stringsJoin_eq_intercalate (elems : List String) (sep : String) :
    stringsJoin elems sep = sep.intercalate elems := by
  have h : ∀ (rest : List String) (acc : String),
      rest.foldl (fun b x => b ++ sep ++ x) acc = String.intercalate.go acc sep rest := by
    intro rest
    induction rest with
    | nil => simp [String.intercalate.go]
    | cons x xs ih =>
      intro acc
      simp [String.intercalate.go, ih]
  cases elems with
  | nil => rfl
  | cons e rest =>
    cases rest with
    | nil => rfl
    | cons x xs =>
      rw [stringsJoin, h]
      · rfl
      · simp

theorem submitted_append (xs ys : List Action) :
    submitted (xs ++ ys) = submitted xs ++ submitted ys := by
  induction xs with
  | nil => rfl
  | cons a rest ih => cases a <;> simp [submitted, ih]

theorem submitted_scan (who : String) (lines : List String) :
    submitted (scan who lines) =
      lines.map (fun text => Event.messages (who ++ ": " ++ text)) := by
  induction lines with
  | nil => rfl
  | cons text rest ih => simp [scan, submitted, ih]

/-- The events handleConn submits to the broadcaster, in order, whatever ended
the read loop. -/
theorem submitted_handleConn (who : String) (ch : Nat) (lines : List String) (fin : ScanEnd) :
    submitted (handleConn who ch lines fin) =
      [Event.messages (who ++ " has arrived"), Event.entering ⟨ch, who⟩] ++
      lines.map (fun text => Event.messages (who ++ ": " ++ text)) ++
      [Event.leaving ⟨ch, who⟩, Event.messages (who ++ " has left")] := by
  simp [handleConn, submitted_append, submitted_scan, arrive, depart, submitted]

theorem execAll_append (s : State) (xs ys : List Action) :
    execAll s (xs ++ ys) = (execAll s xs).bind (fun s1 => execAll s1 ys) := by
  induction xs generalizing s with
  | nil => simp [execAll]
  | cons a rest ih =>
    cases h : exec s a with
    | none => simp [execAll, h]
    | some s1 => simp [execAll, h, ih]

/-- One messages event, seen from every sink. -/
theorem messages_step_delivered (s : State) (M : String)
    (hopen : ∀ c ∈ s.clients, c.channel ∉ s.closed)
    (hsinks : (s.clients.map clientChannel.channel).Nodup) :
    ∃ s1, broadcasterStep s (Event.messages M) = some s1 ∧
      s1.clients = s.clients ∧ s1.closed = s.closed ∧
      ∀ ch, delivered ch s1 = delivered ch s ++
        (if ch ∈ s.clients.map clientChannel.channel then [M] else []) := by
  refine ⟨_, broadcasterStep_messages.mpr ⟨hopen, rfl⟩, rfl, rfl, ?_⟩
  intro ch
  simp only [delivered, sentOn_append, sentOn_map_send _ _ _ hsinks]

/-- The read loop, seen from every sink. -/
theorem scan_delivered (who : String) (lines : List String) (s : State)
    (hopen : ∀ c ∈ s.clients, c.channel ∉ s.closed)
    (hsinks : (s.clients.map clientChannel.channel).Nodup) :
    ∃ s1, execAll s (scan who lines) = some s1 ∧
      s1.clients = s.clients ∧ s1.closed = s.closed ∧
      ∀ ch, delivered ch s1 = delivered ch s ++
        (if ch ∈ s.clients.map clientChannel.channel
          then lines.map (fun text => who ++ ": " ++ text) else []) := by
  induction lines generalizing s with
  | nil => exact ⟨s, rfl, rfl, rfl, by simp⟩
  | cons text rest ih =>
    obtain ⟨s0, h0, hc0, hd0, hdel0⟩ :=
      messages_step_delivered s (who ++ ": " ++ text) hopen hsinks
    obtain ⟨s1, h1, hc1, hd1, hdel1⟩ := ih s0 (by rw [hc0, hd0]; exact hopen)
      (by rw [hc0]; exact hsinks)
    refine ⟨s1, ?_, by rw [hc1, hc0], by rw [hd1, hd0], ?_⟩
    · simp only [scan, execAll, exec, h0, h1]
    · intro ch
      rw [hdel1 ch, hdel0 ch, hc0]
      by_cases hch : ch ∈ s.clients.map clientChannel.channel
      · simp [hch]
      · simp [hch]

theorem execAll_arrive (s : State) (who : String) (ch : Nat)
    (hopen : ∀ c ∈ s.clients, c.channel ∉ s.closed)
    (hch : ch ∉ s.closed) (hnew : (⟨ch, who⟩ : clientChannel) ∉ s.clients) :
    execAll s (arrive who ch) = some (afterArrive s who ch) := by
  have h3 : ∀ (t : State) (m : String), t.closed = s.closed → t.clients = s.clients →
      rangeSend m s.clients t =
        some { t with log := t.log ++ s.clients.map (fun c => Op.send c.channel m) } :=
    fun t m ht _ => (rangeSend_eq_some m s.clients t _).mpr ⟨by rw [ht]; exact hopen, rfl⟩
  simp only [arrive, execAll, exec, send, hch, if_false, broadcasterStep]
  rw [h3 ⟨s.clients, s.closed, s.log ++ [Op.send ch (broadcastAllClientNames s.clients)] ++
      [Op.send ch ("You are " ++ who)]⟩ (who ++ " has arrived") rfl rfl]
  simp only [mapInsert, hnew, if_false, afterArrive, List.append_assoc, List.cons_append,
    List.nil_append]

/-- C7: scenario 1 for every pair of identities, from any state with an empty
registry and fresh channels: the first client receives the greeting with no
name and then You are A; the second receives the greeting naming A and then
You are B, and the first receives B has arrived.  In general the greeting is
the fixed text followed by the names of the registered clients, one per
client, separated by single spaces. -/
theorem greeting_scenario (A B : String) (chA chB : Nat) (s0 : State)
    (hne : chA ≠ chB) (hempty : s0.clients = [])
    (hopenA : chA ∉ s0.closed) (hopenB : chB ∉ s0.closed)
    (hfreshA : delivered chA s0 = []) (hfreshB : delivered chB s0 = []) :
    (∃ s1, execAll s0 (arrive A chA) = some s1 ∧
      delivered chA s1 = ["Current set of clients: ", "You are " ++ A] ∧
      s1.clients = [⟨chA, A⟩] ∧
      ∃ s2, execAll s1 (arrive B chB) = some s2 ∧
        delivered chB s2 = ["Current set of clients: " ++ A, "You are " ++ B] ∧
        delivered chA s2 =
          ["Current set of clients: ", "You are " ++ A, B ++ " has arrived"] ∧
        s2.clients = [⟨chA, A⟩, ⟨chB, B⟩]) ∧
    (∀ cs : List clientChannel, broadcastAllClientNames cs =
      "Current set of clients: " ++ " ".intercalate (cs.map clientChannel.clientName)) := by
  have hgen : ∀ cs : List clientChannel, broadcastAllClientNames cs =
      "Current set of clients: " ++ " ".intercalate (cs.map clientChannel.clientName) := by
    intro cs
    rw [broadcastAllClientNames, stringsJoin_eq_intercalate, collectNames_eq_map]
  have hne2 : chB ≠ chA := fun e => hne e.symm
  have hg0 : broadcastAllClientNames [] = "Current set of clients: " := by
    rw [hgen]
    simp [String.intercalate]
  have hg1 : broadcastAllClientNames [⟨chA, A⟩] = "Current set of clients: " ++ A := by
    rw [hgen]
    simp [String.intercalate, String.intercalate.go]
  simp only [delivered] at hfreshA hfreshB
  have hc1 : (afterArrive s0 A chA).clients = [⟨chA, A⟩] := by simp [afterArrive, hempty]
  have hd1 : (afterArrive s0 A chA).closed = s0.closed := rfl
  have hl1 : sentOn chA (afterArrive s0 A chA).log =
      ["Current set of clients: ", "You are " ++ A] := by
    simp [afterArrive, hempty, sentOn_append, sentOn, hfreshA, hg0]
  have hl1B : sentOn chB (afterArrive s0 A chA).log = [] := by
    simp [afterArrive, hempty, sentOn_append, sentOn, hfreshB, hne]
  have he1 : execAll s0 (arrive A chA) = some (afterArrive s0 A chA) :=
    execAll_arrive s0 A chA (by simp [hempty]) hopenA (by simp [hempty])
  generalize afterArrive s0 A chA = s1 at hc1 hd1 hl1 hl1B he1
  refine ⟨⟨s1, he1, hl1, hc1, afterArrive s1 B chB, ?_, ?_, ?_, ?_⟩, hgen⟩
  · apply execAll_arrive
    · intro c hc
      rw [hc1, List.mem_singleton] at hc
      rw [hc, hd1]
      exact hopenA
    · exact hd1 ▸ hopenB
    · rw [hc1]
      simp [hne2]
  · have : sentOn chB (afterArrive s1 B chB).log =
        sentOn chB s1.log ++
          ["Current set of clients: " ++ A, "You are " ++ B] := by
      simp [afterArrive, hc1, sentOn_append, sentOn, hne, hg1]
    simpa [delivered, hl1B] using this
  · have : sentOn chA (afterArrive s1 B chB).log =
        sentOn chA s1.log ++ [B ++ " has arrived"] := by
      simp [afterArrive, hc1, sentOn_append, sentOn, hne2]
    simpa [delivered, hl1] using this
  · simp [afterArrive, hc1]

theorem greeting_scenario_witness :
    (∃ s1, execAll init (arrive "A" 1) = some s1 ∧
      delivered 1 s1 = ["Current set of clients: ", "You are " ++ "A"] ∧
      s1.clients = [⟨1, "A"⟩] ∧
      ∃ s2, execAll s1 (arrive "B" 2) = some s2 ∧
        delivered 2 s2 = ["Current set of clients: " ++ "A", "You are " ++ "B"] ∧
        delivered 1 s2 =
          ["Current set of clients: ", "You are " ++ "A", "B" ++ " has arrived"] ∧
        s2.clients = [⟨1, "A"⟩, ⟨2, "B"⟩]) ∧
    (∀ cs : List clientChannel, broadcastAllClientNames cs =
      "Current set of clients: " ++ " ".intercalate (cs.map clientChannel.clientName)) :=
  greeting_scenario "A" "B" 1 2 init (by decide) rfl (by decide) (by decide) rfl rfl

/-- C8: for a registered client A and the lines its scanner yields, scan
submits exactly one messages event per line, with text A: line, in the order
read, and after its Join (handleConn submits entering before any relayed
line); processing them completes, and every client registered at that moment,
A included, receives each such text exactly once and in that order, while no
other sink receives anything. -/
theorem relayed_lines_reach_every_registered_client (who : String) (ch : Nat)
    (lines : List String) (s : State)
    (hopen : ∀ c ∈ s.clients, c.channel ∉ s.closed)
    (hsinks : (s.clients.map clientChannel.channel).Nodup)
    (hjoined : (⟨ch, who⟩ : clientChannel) ∈ s.clients) :
    (∀ text, submitted (scan who [text]) = [Event.messages (who ++ ": " ++ text)]) ∧
    (∀ fin, submitted (handleConn who ch lines fin) =
      [Event.messages (who ++ " has arrived"), Event.entering ⟨ch, who⟩] ++
      lines.map (fun text => Event.messages (who ++ ": " ++ text)) ++
      [Event.leaving ⟨ch, who⟩, Event.messages (who ++ " has left")]) ∧
    ∃ s1, execAll s (scan who lines) = some s1 ∧ s1.clients = s.clients ∧
      (∀ c ∈ s.clients, delivered c.channel s1 =
        delivered c.channel s ++ lines.map (fun text => who ++ ": " ++ text)) ∧
      delivered ch s1 = delivered ch s ++ lines.map (fun text => who ++ ": " ++ text) ∧
      (∀ other, other ∉ s.clients.map clientChannel.channel →
        delivered other s1 = delivered other s) := by
  refine ⟨fun text => submitted_scan who [text], submitted_handleConn who ch lines, ?_⟩
  obtain ⟨s1, h1, hc1, _, hdel⟩ := scan_delivered who lines s hopen hsinks
  have hall : ∀ c ∈ s.clients, delivered c.channel s1 =
      delivered c.channel s ++ lines.map (fun text => who ++ ": " ++ text) := by
    intro c hc
    have hm : c.channel ∈ s.clients.map clientChannel.channel := List.mem_map_of_mem _ hc
    rw [hdel c.channel, if_pos hm]
  refine ⟨s1, h1, hc1, hall, hall ⟨ch, who⟩ hjoined, ?_⟩
  intro other hother
  rw [hdel other, if_neg hother, List.append_nil]

theorem relayed_lines_reach_every_registered_client_witness :
    ∃ s1, execAll { clients := [⟨1, "A"⟩, ⟨2, "B"⟩], closed := [3], log := [] }
        (scan "A" ["hello", "bye"]) = some s1 ∧
      delivered 1 s1 = ["A: hello", "A: bye"] ∧
      delivered 2 s1 = ["A: hello", "A: bye"] ∧
      delivered 3 s1 = [] := by
  obtain ⟨_, _, s1, h1, _, h2, h3, h4⟩ := relayed_lines_reach_every_registered_client
    "A" 1 ["hello", "bye"] { clients := [⟨1, "A"⟩, ⟨2, "B"⟩], closed := [3], log := [] }
    (by decide) (by decide) (by decide)
  exact ⟨s1, h1, h3, h2 ⟨2, "B"⟩ (by decide), h4 3 (by decide)⟩

/-- Removal of a registered client keeps every remaining client's sink open
and distinct, and the removed client's sink belongs to none of them. -/
theorem leaving_step_registered (s : State) (cli : clientChannel)
    (hopen : ∀ c ∈ s.clients, c.channel ∉ s.closed)
    (hsinks : (s.clients.map clientChannel.channel).Nodup)
    (hin : cli ∈ s.clients) :
    ∃ s2, broadcasterStep s (Event.leaving cli) = some s2 ∧
      (∀ d, d ∈ s2.clients ↔ d ∈ s.clients ∧ d ≠ cli) ∧
      cli.channel ∈ s2.closed ∧
      (∀ other, delivered other s2 = delivered other s) ∧
      (∀ c ∈ s2.clients, c.channel ∉ s2.closed) ∧
      (s2.clients.map clientChannel.channel).Nodup ∧
      cli.channel ∉ s2.clients.map clientChannel.channel := by
  have hsub : ∀ d, d ∈ s.clients.filter (fun d => decide (d ≠ cli)) →
      d ∈ s.clients ∧ d.channel ≠ cli.channel := by
    intro d hd
    simp only [List.mem_filter, decide_eq_true_eq] at hd
    exact ⟨hd.1, fun hch => hd.2 (List.inj_on_of_nodup_map hsinks hd.1 hin hch)⟩
  refine ⟨_, broadcasterStep_leaving.mpr ⟨hopen cli hin, rfl⟩, ?_, List.mem_cons_self _ _,
    ?_, ?_, hsinks.sublist ((List.filter_sublist _).map _), ?_⟩
  · intro d
    simp
  · intro other
    simp [delivered, sentOn_append, sentOn]
  · intro c hc
    simp only [List.mem_cons, not_or]
    exact ⟨(hsub c hc).2, hopen c (hsub c hc).1⟩
  · intro hmem
    obtain ⟨d, hd, hdc⟩ := List.mem_map.mp hmem
    exact (hsub d hd).2 hdc

/-- C9: whatever ended the read loop, handleConn submits leaving of the client
and then one messages event A has left, as its last two events; processing
them from a state where A and another client B are registered completes, B
receives A has left exactly once, A's sink receives nothing and is closed,
and A is no longer registered. -/
theorem departure_announced_to_others (who : String) (ch : Nat) (lines : List String)
    (s : State) (B : clientChannel)
    (hopen : ∀ c ∈ s.clients, c.channel ∉ s.closed)
    (hsinks : (s.clients.map clientChannel.channel).Nodup)
    (hA : (⟨ch, who⟩ : clientChannel) ∈ s.clients)
    (hB : B ∈ s.clients) (hne : B ≠ ⟨ch, who⟩) :
    (∀ fin, submitted (handleConn who ch lines fin) =
      submitted (arrive who ch ++ scan who lines) ++
        [Event.leaving ⟨ch, who⟩, Event.messages (who ++ " has left")]) ∧
    ∃ s1, execAll s (depart who ch) = some s1 ∧
      delivered B.channel s1 = delivered B.channel s ++ [who ++ " has left"] ∧
      delivered ch s1 = delivered ch s ∧
      ch ∈ s1.closed ∧
      (⟨ch, who⟩ : clientChannel) ∉ s1.clients ∧
      B ∈ s1.clients := by
  constructor
  · intro fin
    simp [handleConn, submitted_append, depart, submitted]
  · obtain ⟨s2, h2, hmem2, hcl2, hdel2, hopen2, hsinks2, hnot2⟩ :=
      leaving_step_registered s ⟨ch, who⟩ hopen hsinks hA
    obtain ⟨s1, h1, hc1, hd1, hdel1⟩ :=
      messages_step_delivered s2 (who ++ " has left") hopen2 hsinks2
    have hB2 : B ∈ s2.clients := (hmem2 B).mpr ⟨hB, hne⟩
    refine ⟨s1, ?_, ?_, ?_, ?_, ?_, ?_⟩
    · simp only [depart, execAll, exec, h2, h1]
    · rw [hdel1, if_pos (List.mem_map_of_mem _ hB2), hdel2]
    · rw [hdel1, if_neg hnot2, hdel2, List.append_nil]
    · rw [hd1]
      exact hcl2
    · rw [hc1, hmem2]
      exact fun h => h.2 rfl
    · rw [hc1]
      exact hB2

theorem departure_announced_to_others_witness :
    ∃ s1, execAll { clients := [⟨1, "A"⟩, ⟨2, "B"⟩], closed := [], log := [] }
        (depart "A" 1) = some s1 ∧
      delivered 2 s1 = ["A has left"] ∧ delivered 1 s1 = [] ∧ 1 ∈ s1.closed ∧
      (⟨1, "A"⟩ : clientChannel) ∉ s1.clients := by
  obtain ⟨_, s1, h1, h2, h3, h4, h5, _⟩ := departure_announced_to_others "A" 1 []
    { clients := [⟨1, "A"⟩, ⟨2, "B"⟩], closed := [], log := [] } ⟨2, "B"⟩
    (by decide) (by decide) (by decide) (by decide) (by decide)
  exact ⟨s1, h1, h2, h3, h4, h5⟩

/-! ## Who touches the registry -/

/-- C10 fails as stated: the greeting step, which the handler executes itself,
sends a line that depends on the registry: with the same channels and log, an
empty registry and a registry holding A give different greetings. -/
theorem greeting_reads_registry :
    (exec { clients := [], closed := [], log := [] } (Action.greet 2)).map (delivered 2) =
      some ["Current set of clients: "] ∧
    (exec { clients := [⟨1, "A"⟩], closed := [], log := [] } (Action.greet 2)).map
      (delivered 2) = some ["Current set of clients: A"] := by
  decide

/-- C10 (as the code has it): no step that a handler executes itself changes
the registry, and neither does the broadcaster's processing of a messages
event; the registry changes only while the broadcaster processes entering or
leaving.  The handler's greeting step reads the registry: the line it sends
is computed from the registry's clients at that moment. -/
theorem registry_changed_only_by_broadcaster (s s1 : State) (a : Action)
    (h : exec s a = some s1) :
    ((∀ cli, a ≠ Action.submit (Event.entering cli)) →
      (∀ cli, a ≠ Action.submit (Event.leaving cli)) → s1.clients = s.clients) ∧
    (∀ target, a = Action.greet target →
      delivered target s1 = delivered target s ++ [broadcastAllClientNames s.clients]) := by
  constructor
  · intro hj hl
    cases a with
    | goClientWriter c =>
      simp only [exec, Option.some.injEq] at h
      rw [← h]
    | greet c =>
      obtain ⟨_, rfl⟩ := send_eq_some.mp h
      rfl
    | tell c msg =>
      obtain ⟨_, rfl⟩ := send_eq_some.mp h
      rfl
    | submit e =>
      cases e with
      | messages msg =>
        obtain ⟨_, rfl⟩ := broadcasterStep_messages.mp h
        rfl
      | entering cli => exact absurd rfl (hj cli)
      | leaving cli => exact absurd rfl (hl cli)
    | goCheckIdle =>
      simp only [exec, Option.some.injEq] at h
      rw [← h]
    | shout text =>
      simp only [exec, Option.some.injEq] at h
      rw [← h]
    | connClose =>
      simp only [exec, Option.some.injEq] at h
      rw [← h]
  · intro target ha
    subst ha
    obtain ⟨_, rfl⟩ := send_eq_some.mp h
    simp [delivered, sentOn_append, sentOn]

theorem registry_changed_only_by_broadcaster_witness :
    (exec { clients := [⟨1, "A"⟩], closed := [], log := [] } (Action.greet 2)).map
        State.clients = some [⟨1, "A"⟩] ∧
      delivered 2 ⟨[⟨1, "A"⟩], [], [Op.send 2 "Current set of clients: A"]⟩ =
        [] ++ [broadcastAllClientNames [⟨1, "A"⟩]] := by
  have h := registry_changed_only_by_broadcaster
    { clients := [⟨1, "A"⟩], closed := [], log := [] }
    ⟨[⟨1, "A"⟩], [], [Op.send 2 "Current set of clients: A"]⟩
    (Action.greet 2) (by decide)
  exact ⟨by decide, h.2 2 rfl⟩

end Chat
